import Mathlib

/-!
Verification development for the AccuRev-to-git conversion script
(`accurev2git.py`).  The script replays AccuRev promotion transactions as git
commits.  The definitions below are a shallow embedding of the functions of
the script that the verified properties talk about: element classification
(`SplitElementsByStatusViaStat`), ancestor computation (`GetParentPaths`),
the promotion handler (`OnPromote`), staged batching (`GitCommit`),
checkpoint resolution (`GetLastConvertedTransaction`) and commit message
generation (`AccurevComment2GitMessage`).  External collaborators (the
`accurev` and `git` command wrappers) are modelled as oracle parameters;
their failure mode is returning `none`, matching the script's `is None`
checks.
-/

set_option maxHeartbeats 1000000

namespace Ac2Git

/-! ### Path helpers -/

/-- Embeds `s.replace('\\', '/')`, used by the script before comparing
AccuRev paths. -/
def replaceBackslashes (s : String) : String :=
  String.mk (s.data.map (fun c => if c = '\\' then '/' else c))

/-- Embeds POSIX `os.path.dirname`: the part of the path up to and including
the last `'/'`, then, if that head is non-empty and not made of slashes
only, with trailing slashes stripped. -/
def dirname (p : String) : String :=
  let head := (p.data.reverse.dropWhile (fun c => c != '/')).reverse
  if head.isEmpty || head.all (fun c => c == '/') then String.mk head
  else String.mk ((head.reverse.dropWhile (fun c => c == '/')).reverse)

/-- Embeds the loop of `GetParentPaths`: repeatedly replace the path by its
`dirname`, stopping (without recording it) at the first iterate that equals
`'/.'` after backslash replacement, and recording every iterate before
that.  The Python loop is a `while True:`; the `Nat` argument is fuel, and a
`none` result means the loop did not stop within that much fuel (for paths
whose dirname chain never reaches `'/.'` it never stops). -/
def getParentPathsFuel : Nat → String → Option (List String)
  | 0, _ => none
  | n + 1, p =>
    let d := dirname p
    if replaceBackslashes d = "/." then some []
    else
      match getParentPathsFuel n d with
      | none => none
      | some ps => some (d :: ps)

/-- The n-fold iterate of `dirname`, used to state what `GetParentPaths`
computes. -/
def dirnameIter : Nat → String → String
  | 0, p => p
  | n + 1, p => dirnameIter n (dirname p)

/-- Embeds `LocalElementPath` with `isAbsolute=False`: strips the three
leading characters (`/./` or `\.\`) of a depot-relative path. -/
def localElementPath (accurevDepotElementPath : String) : String :=
  String.mk (accurevDepotElementPath.data.drop 3)

/-! ### Data model -/

/-- One AccuRev `Version` of a transaction: its depot-relative path, its
directory flag, its element kind, and the stream of its virtual version. -/
structure Version where
  path : String
  dir : Bool
  elemType : String
  stream : String
  deriving DecidableEq

/-- An AccuRev transaction as the script reads it from `accurev hist`. -/
structure Transaction where
  id : Nat
  comment : Option String
  user : String
  time : String
  versions : List Version
  deriving DecidableEq

/-- One element of an `accurev stat` result: its location and its list of
status strings (such as `"(defunct)"`). -/
structure StatElem where
  location : String
  statusList : List String
  deriving DecidableEq

/-- The result of an `accurev stat` query. -/
structure StatInfo where
  elements : List StatElem
  deriving DecidableEq

/-- One `map-user` entry of the configuration; any of the fields may be
missing from the XML. -/
structure UserMap where
  accurevUsername : Option String
  gitName : Option String
  gitEmail : Option String
  deriving DecidableEq

/-- Embeds `GetTransactionDestStream`: the stream of the virtual version of
the first element, if any. -/
def getTransactionDestStream (t : Transaction) : Option String :=
  match t.versions with
  | [] => none
  | v :: _ => some v.stream

/-! ### Element status classifier (`SplitElementsByStatusViaStat`) -/

/-- The paths of all versions of the transaction, in order. -/
def elemListOf (t : Transaction) : List String := t.versions.map (fun v => v.path)

/-- Embeds `for parent in elemParents: if parent not in dirList:
dirList.append(parent)`. -/
def addUniques (acc : List String) : List String → List String
  | [] => acc
  | p :: ps => addUniques (if p ∈ acc then acc else acc ++ [p]) ps

/-- The accumulation of the parent directories of every version path, kept
unique in first-seen order, as in lines 215-222 of the script.  `none`
means some `GetParentPaths` call did not finish within the fuel. -/
def buildDirList (fuel : Nat) : List String → List Version → Option (List String)
  | acc, [] => some acc
  | acc, v :: rest =>
    match getParentPathsFuel fuel v.path with
    | none => none
    | some ps => buildDirList fuel (addUniques acc ps) rest

/-- `fullList = dirList + elemList`, the combined path set handed to the
status query. -/
def fullListOf (fuel : Nat) (t : Transaction) : Option (List String) :=
  match buildDirList fuel [] t.versions with
  | none => none
  | some dirList => some (dirList ++ elemListOf t)

/-- Embeds the construction of `infoDict`: each stat element's location
(backslashes replaced) is mapped to whether `"(defunct)"` is among its
statuses.  Later entries overwrite earlier ones, as for a Python dict. -/
def buildInfoDict (elems : List StatElem) : List (String × Bool) :=
  elems.map (fun e => (replaceBackslashes e.location, e.statusList.contains "(defunct)"))

/-- Python-dict lookup on the association list built by `buildInfoDict`:
the latest binding of a key wins. -/
def infoLookup : List (String × Bool) → String → Option Bool
  | [], _ => none
  | (k, b) :: rest, key =>
    match infoLookup rest key with
    | some r => some r
    | none => if k = key then some b else none

/-- The three statuses the classifier distinguishes. -/
inductive ElemClass
  | member
  | defunct
  | stranded
  deriving DecidableEq

/-- Embeds the `for parent in parents` loop of the classifier: stop with
`true` at the first defunct parent, raise (here: `Except.error`) if a
parent is absent from the dict, and return `false` if all parents are
present and not defunct. -/
def walkParents (dict : List (String × Bool)) : List String → Except String Bool
  | [] => .ok false
  | p :: rest =>
    match infoLookup dict (replaceBackslashes p) with
    | none => .error p
    | some true => .ok true
    | some false => walkParents dict rest

/-- Classification of a single version path, as in lines 250-277 of the
script: directly defunct wins, otherwise a defunct ancestor makes the
element stranded, otherwise it is a member; a path missing from the dict
raises.  The outer `Option` is `none` when the `GetParentPaths` call inside
the loop does not finish within the fuel. -/
def classOf (fuel : Nat) (dict : List (String × Bool)) (p : String) :
    Option (Except String ElemClass) :=
  match infoLookup dict (replaceBackslashes p) with
  | none => some (.error p)
  | some true => some (.ok .defunct)
  | some false =>
    match getParentPathsFuel fuel p with
    | none => none
    | some ps =>
      match walkParents dict ps with
      | .error e => some (.error e)
      | .ok true => some (.ok .stranded)
      | .ok false => some (.ok .member)

/-- Whether the classification of path `p` succeeds with class `c` (a
decidable reading of `classOf`, used to state which list a version lands
in). -/
def classifiesAs (fuel : Nat) (dict : List (String × Bool)) (p : String)
    (c : ElemClass) : Bool :=
  match classOf fuel dict p with
  | some (.ok c2) => decide (c2 = c)
  | _ => false

/-- The classification loop over all versions of the transaction, producing
the member, defunct and stranded lists in transaction order. -/
def classifyAll (fuel : Nat) (dict : List (String × Bool)) :
    List Version → Option (Except String (List Version × List Version × List Version))
  | [] => some (.ok ([], [], []))
  | v :: rest =>
    match classOf fuel dict v.path with
    | none => none
    | some (.error e) => some (.error e)
    | some (.ok c) =>
      match classifyAll fuel dict rest with
      | none => none
      | some (.error e) => some (.error e)
      | some (.ok (m, d, s)) =>
        match c with
        | .member => some (.ok (v :: m, d, s))
        | .defunct => some (.ok (m, v :: d, s))
        | .stranded => some (.ok (m, d, v :: s))

/-- The possible outcomes of `SplitElementsByStatusViaStat`:
`diverge` models a `GetParentPaths` call that loops forever (no fuel is
enough), `empty2` is the early `return ([], [])` two-element branch taken
when the combined path set is empty, `error` is a raised exception (a path
missing from the stat result, or `accurev.stat` returning `None`), and
`triple` is the normal three-element `(member, defunct, stranded)` return. -/
inductive SplitResult
  | diverge
  | empty2
  | error (msg : String)
  | triple (member defunct stranded : List Version)
  deriving DecidableEq

/-- Whether the split raised an exception (which aborts the run). -/
def SplitResult.isErr : SplitResult → Bool
  | .error _ => true
  | _ => false

/-- Embeds `SplitElementsByStatusViaStat`.  The `stat` oracle is
`accurev.stat` as a function of the stream, the transaction id and the
queried path list; whether the query goes through a temporary listing file
or direct arguments does not change its input, so both branches consult the
same oracle (the file handling itself is modelled by `statQueryEvents`). -/
def splitElements (fuel : Nat) (t : Transaction)
    (stat : Option String → Nat → List String → Option StatInfo) : SplitResult :=
  match fullListOf fuel t with
  | none => .diverge
  | some fullList =>
    if fullList.length = 0 then .empty2
    else
      match stat (getTransactionDestStream t) t.id fullList with
      | none => .error "stat returned None"
      | some info =>
        match classifyAll fuel (buildInfoDict info.elements) t.versions with
        | none => .diverge
        | some (.error e) => .error e
        | some (.ok (m, d, s)) => .triple m d s

/-- The `infoDict` that the classifier builds, when it gets as far as
building one (combined path list computed, non-empty, and the stat query
returned a result). -/
def statDictOf (fuel : Nat) (t : Transaction)
    (stat : Option String → Nat → List String → Option StatInfo) :
    Option (List (String × Bool)) :=
  match fullListOf fuel t with
  | none => none
  | some fullList =>
    if fullList.length = 0 then none
    else
      match stat (getTransactionDestStream t) t.id fullList with
      | none => none
      | some info => some (buildInfoDict info.elements)

/-! ### Commit message, author and promotion handler (`OnPromote`) -/

/-- One decimal digit as a character. -/
def digitChar : Nat → Char
  | 0 => '0' | 1 => '1' | 2 => '2' | 3 => '3' | 4 => '4'
  | 5 => '5' | 6 => '6' | 7 => '7' | 8 => '8' | _ => '9'

/-- Fuel-driven helper for the decimal representation; any fuel above the
number itself is enough. -/
def natDecimalAux : Nat → Nat → List Char
  | 0, _ => []
  | fuel + 1, n =>
    if n < 10 then [digitChar n]
    else natDecimalAux fuel (n / 10) ++ [digitChar (n % 10)]

/-- The decimal representation of a natural number, most significant digit
first, as produced by Python's `"{0}".format(id)`. -/
def natDecimal (n : Nat) : List Char := natDecimalAux (n + 1) n

/-- The literal text of the transaction tag that
`AccurevComment2GitMessage` embeds and `GetLastConvertedTransaction`
searches for. -/
def tagText : String := "AccuRev Transaction #"

/-- Embeds `AccurevComment2GitMessage`: the original comment (or a
placeholder when absent) followed by a blank line and the structured
transaction tag. -/
def accurevComment2GitMessage (t : Transaction) : String :=
  let comment := match t.comment with
    | none => "[no original comment]"
    | some c => c
  comment ++ "\n\n" ++ "[" ++ tagText ++ String.mk (natDecimal t.id) ++ "]"

/-- Embeds `GetGitUserDetails`: the name/email pair of the first usermap
entry matching the AccuRev username. -/
def getGitUserDetails (usermaps : List UserMap) (u : String) :
    Option String × Option String :=
  match usermaps with
  | [] => (none, none)
  | m :: rest =>
    if m.accurevUsername = some u then (m.gitName, m.gitEmail)
    else getGitUserDetails rest u

/-- Embeds `AccurevUser2GitAuthor`: fall back to the username itself and a
synthesized email when the user map has no entry. -/
def accurevUser2GitAuthor (usermaps : List UserMap) (u : String) : String :=
  let pair := getGitUserDetails usermaps u
  let name := pair.1.getD u
  let email := pair.2.getD (u ++ "@no-email.com")
  name ++ " <" ++ email ++ ">"

/-- The data handed to `GitCommit` when `OnPromote` decides to commit. -/
structure CommitRequest where
  branch : String
  author : String
  date : String
  message : String
  addList : List String
  rmList : List String
  deriving DecidableEq

/-- The test of line 444 of the script: a directory that is not a symbolic
or external link (such versions get their subtree removed on disk instead
of being put on the remove list). -/
def isDirNonLink (v : Version) : Bool :=
  v.dir && !(v.elemType == "slink" || v.elemType == "elink")

/-- The add list built by `OnPromote` from the member versions: when there
are members, the transaction is populated (`popOk` is the outcome of
`PopAccurevTransaction`; on failure the script exits, modelled by `none`)
and every non-directory member contributes its local path. -/
def computeAddList (popOk : Bool) (member : List Version) : Option (List String) :=
  if member.isEmpty then some []
  else if popOk then
    some ((member.filter (fun v => !v.dir)).map (fun v => localElementPath v.path))
  else none

/-- The remove list built by `OnPromote`, drawn from the defunct versions
only: every defunct version that is not a non-link directory contributes
its local path. -/
def computeRmList (defunct : List Version) : List String :=
  (defunct.filter (fun v => !isDirNonLink v)).map (fun v => localElementPath v.path)

/-- The possible outcomes of the `OnPromote` handler.  `fatalUnpack` is the
`ValueError` that the three-way unpacking of the classifier's result would
raise on the classifier's two-element branch; the `fatal*` outcomes abort
the run, the `skipped*` outcomes let the run continue. -/
inductive PromoteResult
  | skippedNoVersions
  | skippedNoStream
  | skippedNotAllowed
  | diverge
  | fatalUnpack
  | fatalClassify (msg : String)
  | fatalPop
  | committed (req : CommitRequest)
  | skippedEmpty
  deriving DecidableEq

/-- Whether `OnPromote` attempted a commit. -/
def PromoteResult.isCommitted : PromoteResult → Bool
  | .committed _ => true
  | _ => false

/-- Embeds `OnPromote`: skip when there are no versions, no stream, or the
stream is not allowed; classify; populate members and build the add list;
build the remove list from the defunct versions; commit only when one of
the two lists is non-empty. -/
def onPromote (fuel : Nat) (usermaps : List UserMap) (t : Transaction) (allowed : Bool)
    (stat : Option String → Nat → List String → Option StatInfo) (popOk : Bool) :
    PromoteResult :=
  match t.versions with
  | [] => .skippedNoVersions
  | _ :: _ =>
    match getTransactionDestStream t with
    | none => .skippedNoStream
    | some stream =>
      if !allowed then .skippedNotAllowed
      else
        match splitElements fuel t stat with
        | .diverge => .diverge
        | .empty2 => .fatalUnpack
        | .error e => .fatalClassify e
        | .triple m d _s =>
          match computeAddList popOk m with
          | none => .fatalPop
          | some addList =>
            let rmList := computeRmList d
            if addList.length > 0 || rmList.length > 0 then
              .committed ⟨stream, accurevUser2GitAuthor usermaps t.user, t.time,
                accurevComment2GitMessage t, addList, rmList⟩
            else .skippedEmpty

/-! ### Checkpoint resolver (`GetLastConvertedTransaction`) -/

/-- The character class `[0-9]` of the tag regex. -/
def isDigitChar (c : Char) : Bool := 48 ≤ c.toNat && c.toNat ≤ 57

/-- The numeric value of a decimal digit character. -/
def digitVal (c : Char) : Nat := c.toNat - 48

/-- The value of a digit string, most significant digit first. -/
def digitsToNat (ds : List Char) : Nat := ds.foldl (fun a c => 10 * a + digitVal c) 0

/-- Whether the first list is an initial segment of the second. -/
def listStartsWith : List Char → List Char → Bool
  | [], _ => true
  | _ :: _, [] => false
  | p :: ps, c :: cs => p == c && listStartsWith ps cs

/-- A match of the regex `AccuRev Transaction #([0-9]+)` anchored at the
head of the character list: the literal text followed by at least one
digit, with the greedy group taking the maximal digit run. -/
def matchTagAt (cs : List Char) : Option Nat :=
  if listStartsWith tagText.data cs then
    let ds := (cs.drop tagText.data.length).takeWhile isDigitChar
    if ds.isEmpty then none else some (digitsToNat ds)
  else none

/-- `re.search` for the tag regex: the leftmost match wins. -/
def searchTag : List Char → Option Nat
  | [] => none
  | c :: rest =>
    match matchTagAt (c :: rest) with
    | some n => some n
    | none => searchTag rest

/-- Python `int(...)` on the configured start transaction, modelled for
non-negative decimal strings; `none` models the `except` branch that makes
the script exit. -/
def parseDecimal (s : String) : Option Nat :=
  if !s.data.isEmpty && s.data.all isDigitChar then some (digitsToNat s.data) else none

/-- The outcome of checkpoint resolution: a fatal exit (unparseable start
id), an undetermined resume point (`return None`), or a transaction id to
resume from. -/
inductive CheckpointResult
  | fatal
  | undetermined
  | resume (id : Nat)
  deriving DecidableEq

/-- Embeds `GetLastConvertedTransaction`: on a bootstrap target (the `git
status` output shows `Initial commit`) parse the configured start
transaction; otherwise search the last commit's log text for the embedded
tag and resume at its value plus one. -/
def getLastConvertedTransaction (statusShowsInitialCommit : Bool)
    (startTransaction : String) (lastCommitLog : String) : CheckpointResult :=
  if statusShowsInitialCommit then
    match parseDecimal startTransaction with
    | some n => .resume n
    | none => .fatal
  else
    match searchTag lastCommitLog.data with
    | some tid => .resume (tid + 1)
    | none => .undetermined

/-! ### Batched staging (`GitCommit`) -/

/-- The command-line batching threshold of the script. -/
def maxCmdItems : Nat := 25

/-- The slicing loop of `GitCommit`: take the first `k` items, continue on
the rest, stop on the empty list.  A chunk size of zero reproduces the
loop's immediate break (no batch is staged). -/
def chunkList (k : Nat) (l : List α) : List (List α) :=
  if hk : k = 0 then []
  else if hl : l.isEmpty then []
  else l.take k :: chunkList k (l.drop k)
termination_by l.length
decreasing_by
  simp only [List.isEmpty_iff] at hl
  have h1 : 0 < l.length := List.length_pos.mpr hl
  simp only [List.length_drop]
  omega

/-- The staged state of the git index, as far as the script drives it: the
accumulated added paths and the accumulated removed paths. -/
structure GitIndex where
  staged : List String
  removed : List String
  deriving DecidableEq

/-- One `gitRepo.add(batch, force=True)` call. -/
def gitAddBatch (idx : GitIndex) (batch : List String) : GitIndex :=
  ⟨idx.staged ++ batch, idx.removed⟩

/-- One `gitRepo.rm(batch)` call. -/
def gitRmBatch (idx : GitIndex) (batch : List String) : GitIndex :=
  ⟨idx.staged, idx.removed ++ batch⟩

/-- The staging part of `GitCommit` with chunk size `k`: stage the add list
in batches, then the remove list in batches. -/
def gitCommitStage (k : Nat) (addList rmList : List String) (idx : GitIndex) : GitIndex :=
  List.foldl gitRmBatch (List.foldl gitAddBatch idx (chunkList k addList))
    (chunkList k rmList)

/-- Unbatched staging: one add call and one rm call with the whole lists. -/
def gitStageAll (addList rmList : List String) (idx : GitIndex) : GitIndex :=
  gitRmBatch (gitAddBatch idx addList) rmList

/-! ### Temporary-listing-file handling of the external queries -/

/-- The filesystem/process events of one external query: writing a
temporary listing file, issuing the query (via listing file or via direct
arguments, with its success flag), and removing the temporary file. -/
inductive FsEvent
  | writeTmp (name : String)
  | extQuery (viaListFile : Bool) (ok : Bool)
  | removeTmp (name : String)
  deriving DecidableEq

/-- The event trace of the stat query of `SplitElementsByStatusViaStat`
(lines 227-238): above the threshold the query goes through `.stat_list`,
which is removed right after the call returns, whatever the outcome `ok`;
below it the paths are passed as direct arguments. -/
def statQueryEvents (fullList : List String) (ok : Bool) : List FsEvent :=
  if fullList.length > maxCmdItems then
    [.writeTmp ".stat_list", .extQuery true ok, .removeTmp ".stat_list"]
  else if fullList.length > 0 then [.extQuery false ok]
  else []

/-- The event trace of the populate call of `PopAccurevTransaction`
(lines 288-300), batched through `.pop_list` in the same way. -/
def popQueryEvents (versions : List Version) (ok : Bool) : List FsEvent :=
  if versions.length > maxCmdItems then
    [.writeTmp ".pop_list", .extQuery true ok, .removeTmp ".pop_list"]
  else [.extQuery false ok]

/-! ### Concrete example inputs, used by witnesses and counterexamples -/

/-- A file under the directory `/./d`. -/
def exVFile : Version := ⟨"/./d/f", false, "text", "s1"⟩

/-- The directory `/./d` itself. -/
def exVDir : Version := ⟨"/./d", true, "dir", "s1"⟩

/-- A file directly under the depot root. -/
def exVTop : Version := ⟨"/./a", false, "text", "s1"⟩

/-- Another file directly under the depot root. -/
def exVSolo : Version := ⟨"/./f", false, "text", "s1"⟩

/-- A promotion touching a member file, a defunct directory and a file
under that directory. -/
def exTxnABC : Transaction := ⟨100, none, "u", "tm", [exVTop, exVDir, exVFile]⟩

/-- A promotion touching only the defunct directory and the file under
it. -/
def exTxnDir : Transaction := ⟨101, none, "u", "tm", [exVDir, exVFile]⟩

/-- A promotion defuncting a single file. -/
def exTxnSolo : Transaction := ⟨102, some "remove f", "u", "tm", [exVSolo]⟩

/-- A promotion touching the file under `/./d` only. -/
def exTxnFile : Transaction := ⟨103, none, "u", "tm", [exVFile]⟩

/-- A stat oracle answering for `/./a` (member), `/./d` (defunct) and
`/./d/f` (member). -/
def statOracleABC : Option String → Nat → List String → Option StatInfo :=
  fun _ _ _ => some ⟨[⟨"/./a", ["(member)"]⟩, ⟨"/./d", ["(defunct)"]⟩,
    ⟨"/./d/f", ["(member)"]⟩]⟩

/-- A stat oracle answering only for `/./f` (defunct). -/
def statOracleSolo : Option String → Nat → List String → Option StatInfo :=
  fun _ _ _ => some ⟨[⟨"/./f", ["(defunct)"]⟩]⟩

/-- A stat oracle answering only for `/./d/f` (defunct), leaving the
queried ancestor `/./d` out of its result. -/
def statOracleMissing : Option String → Nat → List String → Option StatInfo :=
  fun _ _ _ => some ⟨[⟨"/./d/f", ["(defunct)"]⟩]⟩

/-- A stat oracle that succeeds but reports no element at all. -/
def statOracleEmptyInfo : Option String → Nat → List String → Option StatInfo :=
  fun _ _ _ => some ⟨[]⟩

/-- A transaction whose comment itself contains the tag pattern, breaking
the checkpoint round trip. -/
def exTxnBad : Transaction := ⟨5, some "See AccuRev Transaction #99", "u", "tm", []⟩

/-- The commit request that `OnPromote` produces for `exTxnSolo` under the
`statOracleSolo` oracle. -/
def exReqSolo : CommitRequest :=
  ⟨"s1", accurevUser2GitAuthor [] "u", "tm", accurevComment2GitMessage exTxnSolo,
    [], ["f"]⟩

/-! ### Lemmas about batching -/

theorem chunkList_flatten {α : Type} (k : Nat) (hk : 0 < k) (l : List α) :
    (chunkList k l).flatten = l := by
  generalize hn : l.length = n
  induction n using Nat.strong_induction_on generalizing l with
  | _ n ih =>
    rw [chunkList]
    split
    · omega
    · split
      · next hl => simp only [List.isEmpty_iff] at hl; simp [hl]
      · next hl =>
        simp only [List.isEmpty_iff] at hl
        have hpos : 0 < l.length := List.length_pos.mpr hl
        have hlt : (l.drop k).length < n := by
          simp only [List.length_drop]; omega
        simp only [List.flatten_cons]
        rw [ih (l.drop k).length hlt (l.drop k) rfl, List.take_append_drop]

theorem foldl_gitAddBatch (bs : List (List String)) (idx : GitIndex) :
    List.foldl gitAddBatch idx bs = ⟨idx.staged ++ bs.flatten, idx.removed⟩ := by
  induction bs generalizing idx with
  | nil => simp
  | cons b bs ih => simp [gitAddBatch, ih, List.append_assoc]

theorem foldl_gitRmBatch (bs : List (List String)) (idx : GitIndex) :
    List.foldl gitRmBatch idx bs = ⟨idx.staged, idx.removed ++ bs.flatten⟩ := by
  induction bs generalizing idx with
  | nil => simp
  | cons b bs ih => simp [gitRmBatch, ih, List.append_assoc]

/-- C7: splitting the add list and the remove list into fixed-size batches
of any positive chunk size (in particular the configured threshold
`maxCmdItems = 25`) and staging the batches in sequence produces the same
final staged add set and removed set as staging the whole lists
unbatched. -/
theorem c7_batching_invariance (addList rmList : List String) (idx : GitIndex) :
    (∀ k : Nat, 0 < k →
      gitCommitStage k addList rmList idx = gitStageAll addList rmList idx) ∧
    gitCommitStage maxCmdItems addList rmList idx = gitStageAll addList rmList idx := by
  have h : ∀ k : Nat, 0 < k →
      gitCommitStage k addList rmList idx = gitStageAll addList rmList idx := by
    intro k hk
    unfold gitCommitStage gitStageAll
    rw [foldl_gitAddBatch, chunkList_flatten k hk, foldl_gitRmBatch, chunkList_flatten k hk]
    rfl
  exact ⟨h, h maxCmdItems (by decide)⟩

theorem c7_witness :
    gitCommitStage 25 ["a", "b", "c"] ["d"] ⟨[], []⟩ =
      gitStageAll ["a", "b", "c"] ["d"] ⟨[], []⟩ :=
  (c7_batching_invariance ["a", "b", "c"] ["d"] ⟨[], []⟩).1 25 (by decide)

/-! ### Lemmas about the temporary listing file -/

/-- C8: whenever the combined path set of the stat query (or the version
set of a populate call) exceeds the batching threshold, the query is issued
via a temporary listing file, and that file is removed right after the
query completes whatever its outcome `ok` (in particular on failure,
`ok = false`). -/
theorem c8_tmp_file_removed (fullList : List String) (versions : List Version)
    (hs : fullList.length > maxCmdItems) (hp : versions.length > maxCmdItems) :
    ∀ ok : Bool,
      statQueryEvents fullList ok =
        [.writeTmp ".stat_list", .extQuery true ok, .removeTmp ".stat_list"] ∧
      popQueryEvents versions ok =
        [.writeTmp ".pop_list", .extQuery true ok, .removeTmp ".pop_list"] := by
  intro ok
  constructor
  · unfold statQueryEvents
    rw [if_pos hs]
  · unfold popQueryEvents
    rw [if_pos hp]

theorem c8_witness :
    statQueryEvents (List.replicate 26 "p") false =
      [.writeTmp ".stat_list", .extQuery true false, .removeTmp ".stat_list"] ∧
    popQueryEvents (List.replicate 26 ⟨"p", false, "text", "s"⟩) false =
      [.writeTmp ".pop_list", .extQuery true false, .removeTmp ".pop_list"] :=
  c8_tmp_file_removed (List.replicate 26 "p") (List.replicate 26 ⟨"p", false, "text", "s"⟩)
    (by decide) (by decide) false

/-! ### Lemmas about the unreachable two-element branch -/

theorem fullListOf_length_ne_zero (fuel : Nat) (t : Transaction) (fl : List String)
    (hfl : fullListOf fuel t = some fl) (hne : t.versions ≠ []) : fl.length ≠ 0 := by
  unfold fullListOf at hfl
  cases hbd : buildDirList fuel [] t.versions with
  | none => rw [hbd] at hfl; cases hfl
  | some dl =>
    rw [hbd] at hfl
    injection hfl with hfl
    subst hfl
    simp only [List.length_append, elemListOf, List.length_map]
    have : t.versions.length ≠ 0 := fun h => hne (List.length_eq_zero.mp h)
    omega

theorem splitElements_ne_empty2 (fuel : Nat) (t : Transaction)
    (stat : Option String → Nat → List String → Option StatInfo)
    (hne : t.versions ≠ []) : splitElements fuel t stat ≠ .empty2 := by
  unfold splitElements
  split
  · simp
  · next fl hfl =>
    rw [if_neg (fullListOf_length_ne_zero fuel t fl hfl hne)]
    split
    · simp
    · split
      · simp
      · simp
      · simp

/-- C10: when a promotion transaction has at least one version (which
`OnPromote` checks before calling the classifier), the classifier's early
two-element `([], [])` branch is unreachable, so the three-way unpacking of
its result in `OnPromote` never raises: `OnPromote` never reaches the
`fatalUnpack` outcome, for any transaction at all. -/
theorem c10_unpack_safe (fuel : Nat) (usermaps : List UserMap) (t : Transaction)
    (allowed : Bool) (stat : Option String → Nat → List String → Option StatInfo)
    (popOk : Bool) (hne : t.versions ≠ []) :
    splitElements fuel t stat ≠ .empty2 ∧
    onPromote fuel usermaps t allowed stat popOk ≠ .fatalUnpack := by
  refine ⟨splitElements_ne_empty2 fuel t stat hne, ?_⟩
  unfold onPromote
  split
  · simp
  · split
    · simp
    · split
      · simp
      · split
        · simp
        · next hsp => exact absurd hsp (splitElements_ne_empty2 fuel t stat hne)
        · simp
        · split
          · simp
          · dsimp only
            split
            · simp
            · simp

theorem c10_witness :
    splitElements 3 ⟨1, none, "u", "tm", [⟨"/./f", false, "text", "s1"⟩]⟩
        (fun _ _ _ => none) ≠ .empty2 ∧
    onPromote 3 [] ⟨1, none, "u", "tm", [⟨"/./f", false, "text", "s1"⟩]⟩ true
        (fun _ _ _ => none) true ≠ .fatalUnpack :=
  c10_unpack_safe 3 [] ⟨1, none, "u", "tm", [⟨"/./f", false, "text", "s1"⟩]⟩ true
    (fun _ _ _ => none) true (by decide)

/-! ### Lemmas about `GetParentPaths` -/

theorem dirnameIter_empty_string : ∀ n, dirnameIter n "" = "" := by
  intro n
  induction n with
  | zero => rfl
  | succ k ih =>
    show dirnameIter k (dirname "") = ""
    rw [show dirname "" = "" from by decide]
    exact ih

/-- C9: `GetParentPaths` terminates for every path whose repeated
`dirname` truncation reaches the depot root marker `/.` (within `n + 1`
steps), and then returns exactly the chain of proper ancestor directories
strictly below the root marker (the `i`-th entry is the `(i+1)`-fold
`dirname` iterate, no entry is the root marker, and the iterate right after
the last entry is the root marker); and for a path whose truncation chain
never equals `/.` the loop never stops, whatever the fuel. -/
theorem c9_parent_chain :
    (∀ (n : Nat) (p : String), replaceBackslashes (dirnameIter (n + 1) p) = "/." →
      ∃ l, getParentPathsFuel (n + 1) p = some l ∧
        replaceBackslashes (dirnameIter (l.length + 1) p) = "/." ∧
        ∀ (i : Nat) (h : i < l.length),
          l.get ⟨i, h⟩ = dirnameIter (i + 1) p ∧
          replaceBackslashes (l.get ⟨i, h⟩) ≠ "/.") ∧
    (∀ p : String, (∀ m : Nat, replaceBackslashes (dirnameIter (m + 1) p) ≠ "/.") →
      ∀ n : Nat, getParentPathsFuel n p = none) := by
  constructor
  · intro n
    induction n with
    | zero =>
      intro p h
      have h' : replaceBackslashes (dirname p) = "/." := h
      refine ⟨[], ?_, h, ?_⟩
      · simp [getParentPathsFuel, h']
      · intro i hi
        exact absurd hi (by simp)
    | succ k ih =>
      intro p h
      by_cases hd : replaceBackslashes (dirname p) = "/."
      · refine ⟨[], ?_, hd, ?_⟩
        · simp [getParentPathsFuel, hd]
        · intro i hi
          exact absurd hi (by simp)
      · have h' : replaceBackslashes (dirnameIter (k + 1) (dirname p)) = "/." := h
        obtain ⟨l, hl, hroot, hget⟩ := ih (dirname p) h'
        refine ⟨dirname p :: l, ?_, ?_, ?_⟩
        · rw [getParentPathsFuel]
          simp only [if_neg hd, hl]
        · exact hroot
        · intro i hi
          cases i with
          | zero => exact ⟨rfl, hd⟩
          | succ j =>
            have hj : j < l.length := by simpa using hi
            exact hget j hj
  · have key : ∀ (n : Nat) (p : String),
        (∀ m : Nat, replaceBackslashes (dirnameIter (m + 1) p) ≠ "/.") →
        getParentPathsFuel n p = none := by
      intro n
      induction n with
      | zero => intro p _; rfl
      | succ k ih =>
        intro p hp
        have hd : replaceBackslashes (dirname p) ≠ "/." := hp 0
        have hrec : getParentPathsFuel k (dirname p) = none :=
          ih (dirname p) (fun m => hp (m + 1))
        rw [getParentPathsFuel]
        simp only [if_neg hd, hrec]
    intro p hp n
    exact key n p hp

theorem c9_witness :
    (∃ l, getParentPathsFuel (1 + 1) "/./dir/a.txt" = some l ∧
       replaceBackslashes (dirnameIter (l.length + 1) "/./dir/a.txt") = "/." ∧
       ∀ (i : Nat) (h : i < l.length),
         l.get ⟨i, h⟩ = dirnameIter (i + 1) "/./dir/a.txt" ∧
         replaceBackslashes (l.get ⟨i, h⟩) ≠ "/.") ∧
    getParentPathsFuel 5 "a.txt" = none := by
  constructor
  · exact c9_parent_chain.1 1 "/./dir/a.txt" (by decide)
  · refine c9_parent_chain.2 "a.txt" ?_ 5
    intro m
    cases m with
    | zero => decide
    | succ k =>
      show replaceBackslashes (dirnameIter (k + 1) (dirname "a.txt")) ≠ "/."
      rw [show dirname "a.txt" = "" from by decide, dirnameIter_empty_string]
      decide

/-! ### Lemmas about the classifier -/

theorem classifiesAs_iff (fuel : Nat) (dict : List (String × Bool)) (p : String)
    (c : ElemClass) :
    classifiesAs fuel dict p c = true ↔ classOf fuel dict p = some (.ok c) := by
  unfold classifiesAs
  cases hco : classOf fuel dict p with
  | none => simp
  | some r =>
    cases r with
    | error e => simp
    | ok c2 => simp

theorem classifyAll_eq_filter (fuel : Nat) (dict : List (String × Bool)) :
    ∀ (l m d s : List Version),
      classifyAll fuel dict l = some (.ok (m, d, s)) →
      m = l.filter (fun v => classifiesAs fuel dict v.path .member) ∧
      d = l.filter (fun v => classifiesAs fuel dict v.path .defunct) ∧
      s = l.filter (fun v => classifiesAs fuel dict v.path .stranded) := by
  intro l
  induction l with
  | nil =>
    intro m d s h
    simp only [classifyAll, Option.some.injEq, Except.ok.injEq, Prod.mk.injEq] at h
    obtain ⟨h1, h2, h3⟩ := h
    subst h1; subst h2; subst h3
    simp
  | cons w rest ih =>
    intro m d s h
    rw [classifyAll] at h
    cases hw : classOf fuel dict w.path with
    | none => rw [hw] at h; cases h
    | some cw =>
      rw [hw] at h
      cases cw with
      | error e => simp at h
      | ok c =>
        cases hrest : classifyAll fuel dict rest with
        | none => rw [hrest] at h; cases h
        | some r =>
          rw [hrest] at h
          cases r with
          | error e => simp at h
          | ok mds =>
            obtain ⟨m', d', s'⟩ := mds
            obtain ⟨ihm, ihd, ihs⟩ := ih m' d' s' hrest
            cases c with
            | member =>
              simp only [Option.some.injEq, Except.ok.injEq, Prod.mk.injEq] at h
              obtain ⟨hm, hd, hs⟩ := h
              subst hm; subst hd; subst hs
              refine ⟨?_, ?_, ?_⟩
              · have hc : classifiesAs fuel dict w.path .member = true := by
                  simp [classifiesAs, hw]
                simp [List.filter_cons, hc, ihm]
              · have hc : classifiesAs fuel dict w.path .defunct = false := by
                  simp [classifiesAs, hw]
                simp [List.filter_cons, hc, ihd]
              · have hc : classifiesAs fuel dict w.path .stranded = false := by
                  simp [classifiesAs, hw]
                simp [List.filter_cons, hc, ihs]
            | defunct =>
              simp only [Option.some.injEq, Except.ok.injEq, Prod.mk.injEq] at h
              obtain ⟨hm, hd, hs⟩ := h
              subst hm; subst hd; subst hs
              refine ⟨?_, ?_, ?_⟩
              · have hc : classifiesAs fuel dict w.path .member = false := by
                  simp [classifiesAs, hw]
                simp [List.filter_cons, hc, ihm]
              · have hc : classifiesAs fuel dict w.path .defunct = true := by
                  simp [classifiesAs, hw]
                simp [List.filter_cons, hc, ihd]
              · have hc : classifiesAs fuel dict w.path .stranded = false := by
                  simp [classifiesAs, hw]
                simp [List.filter_cons, hc, ihs]
            | stranded =>
              simp only [Option.some.injEq, Except.ok.injEq, Prod.mk.injEq] at h
              obtain ⟨hm, hd, hs⟩ := h
              subst hm; subst hd; subst hs
              refine ⟨?_, ?_, ?_⟩
              · have hc : classifiesAs fuel dict w.path .member = false := by
                  simp [classifiesAs, hw]
                simp [List.filter_cons, hc, ihm]
              · have hc : classifiesAs fuel dict w.path .defunct = false := by
                  simp [classifiesAs, hw]
                simp [List.filter_cons, hc, ihd]
              · have hc : classifiesAs fuel dict w.path .stranded = true := by
                  simp [classifiesAs, hw]
                simp [List.filter_cons, hc, ihs]

theorem classifyAll_mem_iff {fuel : Nat} {dict : List (String × Bool)}
    {l m d s : List Version}
    (h : classifyAll fuel dict l = some (.ok (m, d, s))) (v : Version) :
    (v ∈ m ↔ v ∈ l ∧ classOf fuel dict v.path = some (.ok .member)) ∧
    (v ∈ d ↔ v ∈ l ∧ classOf fuel dict v.path = some (.ok .defunct)) ∧
    (v ∈ s ↔ v ∈ l ∧ classOf fuel dict v.path = some (.ok .stranded)) := by
  obtain ⟨hm, hd, hs⟩ := classifyAll_eq_filter fuel dict l m d s h
  subst hm; subst hd; subst hs
  refine ⟨?_, ?_, ?_⟩ <;> simp [List.mem_filter, classifiesAs_iff]

theorem classifyAll_ok_total (fuel : Nat) (dict : List (String × Bool)) :
    ∀ (l m d s : List Version),
      classifyAll fuel dict l = some (.ok (m, d, s)) →
      ∀ v ∈ l, ∃ c, classOf fuel dict v.path = some (.ok c) := by
  intro l
  induction l with
  | nil =>
    intro m d s _ v hv
    simp at hv
  | cons w rest ih =>
    intro m d s h v hv
    rw [classifyAll] at h
    cases hw : classOf fuel dict w.path with
    | none => rw [hw] at h; cases h
    | some cw =>
      rw [hw] at h
      cases cw with
      | error e => simp at h
      | ok c =>
        cases hrest : classifyAll fuel dict rest with
        | none => rw [hrest] at h; cases h
        | some r =>
          rw [hrest] at h
          cases r with
          | error e => simp at h
          | ok mds =>
            obtain ⟨m', d', s'⟩ := mds
            rcases List.mem_cons.mp hv with hvw | hv'
            · subst hvw; exact ⟨c, hw⟩
            · exact ih m' d' s' hrest v hv'

theorem splitElements_triple {fuel : Nat} {t : Transaction}
    {stat : Option String → Nat → List String → Option StatInfo}
    {m d s : List Version} (h : splitElements fuel t stat = .triple m d s) :
    ∃ dict, statDictOf fuel t stat = some dict ∧
      classifyAll fuel dict t.versions = some (.ok (m, d, s)) := by
  unfold splitElements at h
  split at h
  · cases h
  · next fl hfl =>
    by_cases hz : fl.length = 0
    · rw [if_pos hz] at h; cases h
    · rw [if_neg hz] at h
      cases hst : stat (getTransactionDestStream t) t.id fl with
      | none => rw [hst] at h; cases h
      | some info =>
        rw [hst] at h
        dsimp only at h
        cases hca : classifyAll fuel (buildInfoDict info.elements) t.versions with
        | none => rw [hca] at h; cases h
        | some r =>
          rw [hca] at h
          cases r with
          | error e => cases h
          | ok mds =>
            obtain ⟨m', d', s'⟩ := mds
            dsimp only at h
            injection h with h1 h2 h3
            subst h1; subst h2; subst h3
            refine ⟨buildInfoDict info.elements, ?_, hca⟩
            unfold statDictOf
            rw [hfl]
            simp only [if_neg hz, hst]

/-- C1: whenever the classifier returns its normal three-list result for a
promotion transaction, every touched path appears in one of the member,
defunct and stranded lists, only touched paths appear in them, and the
three lists are pairwise disjoint as path sets. -/
theorem c1_classifier_partition {fuel : Nat} {t : Transaction}
    {stat : Option String → Nat → List String → Option StatInfo}
    {m d s : List Version} (h : splitElements fuel t stat = .triple m d s) :
    (∀ p : String,
        (p ∈ m.map Version.path ∨ p ∈ d.map Version.path ∨ p ∈ s.map Version.path) ↔
          p ∈ t.versions.map Version.path) ∧
    (∀ p : String, p ∈ m.map Version.path → p ∉ d.map Version.path) ∧
    (∀ p : String, p ∈ m.map Version.path → p ∉ s.map Version.path) ∧
    (∀ p : String, p ∈ d.map Version.path → p ∉ s.map Version.path) := by
  obtain ⟨dict, _hdict, hca⟩ := splitElements_triple h
  have hmem := fun v => classifyAll_mem_iff hca v
  have htot := classifyAll_ok_total fuel dict t.versions m d s hca
  refine ⟨?_, ?_, ?_, ?_⟩
  · intro p
    constructor
    · rintro (hp | hp | hp)
      · obtain ⟨v, hv, rfl⟩ := List.mem_map.mp hp
        exact List.mem_map.mpr ⟨v, ((hmem v).1.mp hv).1, rfl⟩
      · obtain ⟨v, hv, rfl⟩ := List.mem_map.mp hp
        exact List.mem_map.mpr ⟨v, ((hmem v).2.1.mp hv).1, rfl⟩
      · obtain ⟨v, hv, rfl⟩ := List.mem_map.mp hp
        exact List.mem_map.mpr ⟨v, ((hmem v).2.2.mp hv).1, rfl⟩
    · intro hp
      obtain ⟨v, hv, rfl⟩ := List.mem_map.mp hp
      obtain ⟨c, hc⟩ := htot v hv
      cases c with
      | member => exact Or.inl (List.mem_map.mpr ⟨v, (hmem v).1.mpr ⟨hv, hc⟩, rfl⟩)
      | defunct =>
        exact Or.inr (Or.inl (List.mem_map.mpr ⟨v, (hmem v).2.1.mpr ⟨hv, hc⟩, rfl⟩))
      | stranded =>
        exact Or.inr (Or.inr (List.mem_map.mpr ⟨v, (hmem v).2.2.mpr ⟨hv, hc⟩, rfl⟩))
  · intro p hpm hpd
    obtain ⟨v, hv, hvp⟩ := List.mem_map.mp hpm
    obtain ⟨w, hw, hwp⟩ := List.mem_map.mp hpd
    have hcv := ((hmem v).1.mp hv).2
    have hcw := ((hmem w).2.1.mp hw).2
    rw [hvp] at hcv
    rw [hwp] at hcw
    rw [hcv] at hcw
    simp at hcw
  · intro p hpm hps
    obtain ⟨v, hv, hvp⟩ := List.mem_map.mp hpm
    obtain ⟨w, hw, hwp⟩ := List.mem_map.mp hps
    have hcv := ((hmem v).1.mp hv).2
    have hcw := ((hmem w).2.2.mp hw).2
    rw [hvp] at hcv
    rw [hwp] at hcw
    rw [hcv] at hcw
    simp at hcw
  · intro p hpd hps
    obtain ⟨v, hv, hvp⟩ := List.mem_map.mp hpd
    obtain ⟨w, hw, hwp⟩ := List.mem_map.mp hps
    have hcv := ((hmem v).2.1.mp hv).2
    have hcw := ((hmem w).2.2.mp hw).2
    rw [hvp] at hcv
    rw [hwp] at hcw
    rw [hcv] at hcw
    simp at hcw

theorem c1_witness :
    (("/./a" ∈ [exVTop].map Version.path ∨ "/./a" ∈ [exVDir].map Version.path ∨
        "/./a" ∈ [exVFile].map Version.path) ↔
      "/./a" ∈ exTxnABC.versions.map Version.path) ∧
    ("/./d" ∈ [exVDir].map Version.path → "/./d" ∉ [exVFile].map Version.path) :=
  have h := @c1_classifier_partition 3 exTxnABC statOracleABC
    [exVTop] [exVDir] [exVFile] (by decide)
  ⟨h.1 "/./a", h.2.2.2 "/./d"⟩

theorem walkParents_ok_true {dict : List (String × Bool)} :
    ∀ {ps : List String}, walkParents dict ps = .ok true →
      ∃ q, q ∈ ps ∧ infoLookup dict (replaceBackslashes q) = some true := by
  intro ps
  induction ps with
  | nil => intro h; simp [walkParents] at h
  | cons p rest ih =>
    intro h
    rw [walkParents] at h
    split at h
    · cases h
    · next hlk => exact ⟨p, List.mem_cons_self _ _, hlk⟩
    · obtain ⟨q, hq, hqt⟩ := ih h
      exact ⟨q, List.mem_cons_of_mem _ hq, hqt⟩

theorem walkParents_ok_false {dict : List (String × Bool)} :
    ∀ {ps : List String}, walkParents dict ps = .ok false →
      ∀ q ∈ ps, infoLookup dict (replaceBackslashes q) = some false := by
  intro ps
  induction ps with
  | nil => intro _ q hq; simp at hq
  | cons p rest ih =>
    intro h q hq
    rw [walkParents] at h
    split at h
    · cases h
    · simp at h
    · next hlk =>
      rcases List.mem_cons.mp hq with rfl | hq'
      · exact hlk
      · exact ih h q hq'

/-- C2: for every version of a promotion transaction handled by the
classifier, a path directly marked defunct in the stat result lands in the
defunct list; a path not directly defunct whose ancestor chain (as computed
by `GetParentPaths`) contains a defunct directory lands in the stranded
list; and a path with no defunct ancestor lands in the member list.  The
stranded conjunct instantiated at a defunct ancestor directory is the
ancestor-closure monotonicity of the spec. -/
theorem c2_classification_rule (fuel : Nat) (t : Transaction)
    (stat : Option String → Nat → List String → Option StatInfo)
    (m d s : List Version) (dict : List (String × Bool)) (v : Version)
    (h : splitElements fuel t stat = .triple m d s)
    (hdict : statDictOf fuel t stat = some dict)
    (hv : v ∈ t.versions) :
    (infoLookup dict (replaceBackslashes v.path) = some true → v ∈ d) ∧
    (∀ ps : List String, getParentPathsFuel fuel v.path = some ps →
      infoLookup dict (replaceBackslashes v.path) = some false →
      ((∃ q, q ∈ ps ∧ infoLookup dict (replaceBackslashes q) = some true) → v ∈ s) ∧
      ((∀ q ∈ ps, infoLookup dict (replaceBackslashes q) ≠ some true) → v ∈ m)) := by
  obtain ⟨dict', hd', hca⟩ := splitElements_triple h
  rw [hdict] at hd'
  injection hd' with hd'
  subst hd'
  have hmem := classifyAll_mem_iff hca v
  constructor
  · intro hlk
    have hc : classOf fuel dict v.path = some (.ok .defunct) := by
      simp [classOf, hlk]
    exact hmem.2.1.mpr ⟨hv, hc⟩
  · intro ps hps hlkf
    obtain ⟨c, hc⟩ := classifyAll_ok_total fuel dict t.versions m d s hca v hv
    constructor
    · rintro ⟨q, hq, hqt⟩
      cases hwp : walkParents dict ps with
      | error e =>
        have hcl : classOf fuel dict v.path = some (.error e) := by
          simp [classOf, hlkf, hps, hwp]
        rw [hcl] at hc
        simp at hc
      | ok b =>
        cases b with
        | false =>
          have := walkParents_ok_false hwp q hq
          rw [this] at hqt
          simp at hqt
        | true =>
          have hcl : classOf fuel dict v.path = some (.ok .stranded) := by
            simp [classOf, hlkf, hps, hwp]
          exact hmem.2.2.mpr ⟨hv, hcl⟩
    · intro hall
      cases hwp : walkParents dict ps with
      | error e =>
        have hcl : classOf fuel dict v.path = some (.error e) := by
          simp [classOf, hlkf, hps, hwp]
        rw [hcl] at hc
        simp at hc
      | ok b =>
        cases b with
        | true =>
          obtain ⟨q, hq, hqt⟩ := walkParents_ok_true hwp
          exact absurd hqt (hall q hq)
        | false =>
          have hcl : classOf fuel dict v.path = some (.ok .member) := by
            simp [classOf, hlkf, hps, hwp]
          exact hmem.1.mpr ⟨hv, hcl⟩

theorem c2_witness : exVFile ∈ ([exVFile] : List Version) :=
  ((c2_classification_rule 3 exTxnABC statOracleABC [exVTop] [exVDir] [exVFile]
      [("/./a", false), ("/./d", true), ("/./d/f", false)] exVFile
      (by decide) (by decide) (by decide)).2 ["/./d"] (by decide) (by decide)).1
    ⟨"/./d", by decide, by decide⟩

theorem buildDirList_some_parents {fuel : Nat} :
    ∀ (l : List Version) (acc dl : List String), buildDirList fuel acc l = some dl →
      ∀ v ∈ l, ∃ ps, getParentPathsFuel fuel v.path = some ps := by
  intro l
  induction l with
  | nil => intro acc dl _ v hv; simp at hv
  | cons w rest ih =>
    intro acc dl h v hv
    rw [buildDirList] at h
    split at h
    · cases h
    · next ps hps =>
      rcases List.mem_cons.mp hv with rfl | hv'
      · exact ⟨ps, hps⟩
      · exact ih _ _ h v hv'

theorem fullListOf_some_parents {fuel : Nat} {t : Transaction} {fl : List String}
    (h : fullListOf fuel t = some fl) :
    ∀ v ∈ t.versions, ∃ ps, getParentPathsFuel fuel v.path = some ps := by
  unfold fullListOf at h
  cases hbd : buildDirList fuel [] t.versions with
  | none => rw [hbd] at h; cases h
  | some dl => exact buildDirList_some_parents t.versions [] dl hbd

theorem classOf_ne_none {fuel : Nat} {dict : List (String × Bool)} {p : String}
    (hps : ∃ ps, getParentPathsFuel fuel p = some ps) :
    classOf fuel dict p ≠ none := by
  obtain ⟨ps, hps⟩ := hps
  cases hlk : infoLookup dict (replaceBackslashes p) with
  | none => simp [classOf, hlk]
  | some b =>
    cases b with
    | true => simp [classOf, hlk]
    | false =>
      cases hwp : walkParents dict ps with
      | error e => simp [classOf, hlk, hps, hwp]
      | ok b2 => cases b2 <;> simp [classOf, hlk, hps, hwp]

theorem classifyAll_error_of_mem {fuel : Nat} {dict : List (String × Bool)} :
    ∀ l : List Version, (∀ w ∈ l, classOf fuel dict w.path ≠ none) →
      ∀ v ∈ l, (∃ e, classOf fuel dict v.path = some (.error e)) →
      ∃ e2, classifyAll fuel dict l = some (.error e2) := by
  intro l
  induction l with
  | nil => intro _ v hv; simp at hv
  | cons w rest ih =>
    intro hnn v hv he
    obtain ⟨e, he⟩ := he
    rcases List.mem_cons.mp hv with rfl | hv'
    · exact ⟨e, by rw [classifyAll, he]⟩
    · cases hw : classOf fuel dict w.path with
      | none => exact absurd hw (hnn w (List.mem_cons_self _ _))
      | some cw =>
        cases cw with
        | error e2 => exact ⟨e2, by rw [classifyAll, hw]⟩
        | ok c =>
          obtain ⟨e2, hca⟩ :=
            ih (fun u hu => hnn u (List.mem_cons_of_mem _ hu)) v hv' ⟨e, he⟩
          refine ⟨e2, ?_⟩
          rw [classifyAll, hw, hca]

theorem walkParents_error_middle {dict : List (String × Bool)} {q : String}
    (hq : infoLookup dict (replaceBackslashes q) = none) :
    ∀ (ps1 : List String), (∀ x ∈ ps1, infoLookup dict (replaceBackslashes x) = some false) →
      ∀ ps2 : List String, walkParents dict (ps1 ++ q :: ps2) = .error q := by
  intro ps1
  induction ps1 with
  | nil =>
    intro _ ps2
    rw [List.nil_append, walkParents, hq]
  | cons x xs ih =>
    intro hall ps2
    rw [List.cons_append, walkParents, hall x (List.mem_cons_self _ _)]
    exact ih (fun y hy => hall y (List.mem_cons_of_mem _ hy)) ps2

/-- C6 (amended): a path whose status the classifier actually consults and
finds absent from the stat result makes the run abort: if the version's own
path is absent, or if the version is not directly defunct and its ancestor
chain contains an absent path preceded only by non-defunct ancestors, then
the classifier raises and `OnPromote` cannot commit the transaction.
(Queried paths whose lookup is never consulted — ancestors of a directly
defunct version, or ancestors past the first defunct one — do not trigger
the abort; see the counterexample for the original claim.) -/
theorem c6_missing_path_aborts (fuel : Nat) (t : Transaction)
    (stat : Option String → Nat → List String → Option StatInfo)
    (dict : List (String × Bool)) (v : Version)
    (hdict : statDictOf fuel t stat = some dict)
    (hv : v ∈ t.versions)
    (hmiss : infoLookup dict (replaceBackslashes v.path) = none ∨
      (infoLookup dict (replaceBackslashes v.path) = some false ∧
        ∃ ps1 q ps2, getParentPathsFuel fuel v.path = some (ps1 ++ q :: ps2) ∧
          (∀ x ∈ ps1, infoLookup dict (replaceBackslashes x) = some false) ∧
          infoLookup dict (replaceBackslashes q) = none)) :
    (splitElements fuel t stat).isErr = true ∧
    ∀ (usermaps : List UserMap) (allowed popOk : Bool),
      (onPromote fuel usermaps t allowed stat popOk).isCommitted = false := by
  have hx : ∃ fl, fullListOf fuel t = some fl ∧ ¬fl.length = 0 ∧
      ∃ info, stat (getTransactionDestStream t) t.id fl = some info ∧
        dict = buildInfoDict info.elements := by
    unfold statDictOf at hdict
    split at hdict
    · cases hdict
    · next fl hfl =>
      split at hdict
      · cases hdict
      · next hz =>
        cases hst : stat (getTransactionDestStream t) t.id fl with
        | none => rw [hst] at hdict; cases hdict
        | some info =>
          rw [hst] at hdict
          dsimp only at hdict
          injection hdict with hdict
          exact ⟨fl, hfl, hz, info, hst, hdict.symm⟩
  obtain ⟨fl, hfl, hz, info, hst, hdicteq⟩ := hx
  have hterm := fullListOf_some_parents hfl
  have hnn : ∀ w ∈ t.versions, classOf fuel dict w.path ≠ none :=
    fun w hw => classOf_ne_none (hterm w hw)
  have herr : ∃ e, classOf fuel dict v.path = some (.error e) := by
    rcases hmiss with hnone | ⟨hfalse, ps1, q, ps2, hps, hall, hqnone⟩
    · exact ⟨v.path, by simp [classOf, hnone]⟩
    · refine ⟨q, ?_⟩
      have hwp := walkParents_error_middle hqnone ps1 hall ps2
      simp [classOf, hfalse, hps, hwp]
  obtain ⟨e2, hca⟩ := classifyAll_error_of_mem t.versions hnn v hv herr
  have hsp : splitElements fuel t stat = .error e2 := by
    unfold splitElements
    rw [hfl]
    dsimp only
    rw [if_neg hz, hst]
    dsimp only
    rw [← hdicteq, hca]
  refine ⟨by rw [hsp]; rfl, ?_⟩
  intro usermaps allowed popOk
  unfold onPromote
  split
  · rfl
  · split
    · rfl
    · split
      · rfl
      · rw [hsp]; rfl

/-- Counterexample to C6 as stated: in `exTxnFile` the queried combined set
is `["/./d", "/./d/f"]`, the stat result omits the ancestor `/./d`
entirely, yet the classifier succeeds (the file is directly defunct, so its
ancestors are never consulted) and `OnPromote` goes on to commit. -/
theorem c6_counterexample :
    fullListOf 3 exTxnFile = some ["/./d", "/./d/f"] ∧
    infoLookup (buildInfoDict [⟨"/./d/f", ["(defunct)"]⟩]) "/./d" = none ∧
    splitElements 3 exTxnFile statOracleMissing = .triple [] [exVFile] [] ∧
    (onPromote 3 [] exTxnFile true statOracleMissing true).isCommitted = true :=
  ⟨by decide, by decide, by decide, by decide⟩

theorem c6_witness :
    (splitElements 3 exTxnSolo statOracleEmptyInfo).isErr = true ∧
    (onPromote 3 [] exTxnSolo true statOracleEmptyInfo true).isCommitted = false :=
  have h := c6_missing_path_aborts 3 exTxnSolo statOracleEmptyInfo [] exVSolo
    (by decide) (by decide) (Or.inl (by decide))
  ⟨h.1, h.2 [] true true⟩

/-! ### Lemmas about the promotion handler's lists -/

theorem onPromote_committed_rmList (fuel : Nat) (usermaps : List UserMap)
    (t : Transaction) (allowed popOk : Bool)
    (stat : Option String → Nat → List String → Option StatInfo)
    (m d s : List Version) (req : CommitRequest)
    (hsp : splitElements fuel t stat = .triple m d s)
    (hcom : onPromote fuel usermaps t allowed stat popOk = .committed req) :
    req.rmList = computeRmList d := by
  unfold onPromote at hcom
  split at hcom
  · cases hcom
  · split at hcom
    · cases hcom
    · split at hcom
      · cases hcom
      · rw [hsp] at hcom
        dsimp only at hcom
        cases hal : computeAddList popOk m with
        | none => rw [hal] at hcom; cases hcom
        | some addList =>
          rw [hal] at hcom
          dsimp only at hcom
          split at hcom
          · injection hcom with hcom
            subst hcom
            rfl
          · cases hcom

/-- C4 (amended): the explicit removal list handed to the commit step is
drawn from the defunct versions only: every defunct version that is a file
or a link (not a non-link directory) is on it, and nothing else is — in
particular stranded files and links are never on the removal list (their
content disappears only through the on-disk subtree removal of their
defunct ancestor directory). -/
theorem c4_remove_list (fuel : Nat) (usermaps : List UserMap) (t : Transaction)
    (allowed popOk : Bool)
    (stat : Option String → Nat → List String → Option StatInfo)
    (m d s : List Version) (req : CommitRequest)
    (hsp : splitElements fuel t stat = .triple m d s)
    (hcom : onPromote fuel usermaps t allowed stat popOk = .committed req) :
    (∀ v ∈ d, isDirNonLink v = false → localElementPath v.path ∈ req.rmList) ∧
    (∀ p ∈ req.rmList,
      ∃ v, v ∈ d ∧ isDirNonLink v = false ∧ localElementPath v.path = p) := by
  have hrm : req.rmList = computeRmList d :=
    onPromote_committed_rmList fuel usermaps t allowed popOk stat m d s req hsp hcom
  constructor
  · intro v hv hfl
    rw [hrm]
    unfold computeRmList
    exact List.mem_map.mpr ⟨v, List.mem_filter.mpr ⟨hv, by simp [hfl]⟩, rfl⟩
  · intro p hp
    rw [hrm] at hp
    unfold computeRmList at hp
    obtain ⟨v, hvf, hvp⟩ := List.mem_map.mp hp
    obtain ⟨hvd, hflag⟩ := List.mem_filter.mp hvf
    refine ⟨v, hvd, ?_, hvp⟩
    simpa using hflag

/-- Counterexample to C4 as stated: in `exTxnDir` the file `/./d/f` is
stranded (its directory `/./d` is defunct), it is a file, yet the removal
list stays empty — `OnPromote` ignores the stranded list entirely and even
skips the commit. -/
theorem c4_counterexample :
    splitElements 3 exTxnDir statOracleABC = .triple [] [exVDir] [exVFile] ∧
    computeRmList [exVDir] = [] ∧
    onPromote 3 [] exTxnDir true statOracleABC true = .skippedEmpty :=
  ⟨by decide, by decide, by decide⟩

theorem c4_witness : localElementPath exVSolo.path ∈ exReqSolo.rmList :=
  (c4_remove_list 3 [] exTxnSolo true true statOracleSolo [] [exVSolo] [] exReqSolo
    (by decide) (by decide)).1 exVSolo (by decide) (by decide)

/-- C5: `OnPromote` attempts a commit only when the computed add list or
remove list is non-empty, and a promotion whose computed lists are both
empty ends in the non-fatal `skippedEmpty` outcome (no commit, the run
continues with the next transaction). -/
theorem c5_empty_skip (fuel : Nat) (usermaps : List UserMap) (t : Transaction)
    (allowed : Bool)
    (stat : Option String → Nat → List String → Option StatInfo)
    (popOk : Bool) :
    (∀ req : CommitRequest,
      onPromote fuel usermaps t allowed stat popOk = .committed req →
      req.addList ≠ [] ∨ req.rmList ≠ []) ∧
    (∀ m d s : List Version, t.versions ≠ [] → allowed = true →
      splitElements fuel t stat = .triple m d s →
      computeAddList popOk m = some [] → computeRmList d = [] →
      onPromote fuel usermaps t allowed stat popOk = .skippedEmpty) := by
  constructor
  · intro req hcom
    unfold onPromote at hcom
    split at hcom
    · cases hcom
    · split at hcom
      · cases hcom
      · split at hcom
        · cases hcom
        · split at hcom
          · cases hcom
          · cases hcom
          · cases hcom
          · split at hcom
            · cases hcom
            · dsimp only at hcom
              split at hcom
              · next hguard =>
                injection hcom with hcom
                subst hcom
                simp only [Bool.or_eq_true, decide_eq_true_eq] at hguard
                rcases hguard with hg | hg
                · left
                  intro hnil
                  dsimp only at hnil
                  rw [hnil] at hg
                  simp at hg
                · right
                  intro hnil
                  dsimp only at hnil
                  rw [hnil] at hg
                  simp at hg
              · cases hcom
  · intro m d s hne hall hsp hal hrm
    subst hall
    obtain ⟨st, hstream⟩ : ∃ st, getTransactionDestStream t = some st := by
      unfold getTransactionDestStream
      cases hv : t.versions with
      | nil => exact absurd hv hne
      | cons v0 rest => exact ⟨v0.stream, rfl⟩
    unfold onPromote
    cases hv : t.versions with
    | nil => exact absurd hv hne
    | cons v0 rest =>
      dsimp only
      rw [hstream]
      dsimp only
      rw [hsp]
      dsimp only
      rw [hal]
      dsimp only
      simp [hrm]

theorem c5_witness :
    (exReqSolo.addList ≠ [] ∨ exReqSolo.rmList ≠ []) ∧
    onPromote 3 [] exTxnDir true statOracleABC true = .skippedEmpty :=
  ⟨(c5_empty_skip 3 [] exTxnSolo true statOracleSolo true).1 exReqSolo (by decide),
   (c5_empty_skip 3 [] exTxnDir true statOracleABC true).2 [] [exVDir] [exVFile]
     (by decide) rfl (by decide) (by decide) (by decide)⟩

/-! ### Lemmas about decimal digits and the commit-message tag -/

theorem string_data_append (x y : String) : (x ++ y).data = x.data ++ y.data := rfl

theorem digitVal_digitChar {d : Nat} (h : d < 10) : digitVal (digitChar d) = d := by
  interval_cases d <;> decide

theorem isDigitChar_digitChar {d : Nat} (h : d < 10) :
    isDigitChar (digitChar d) = true := by
  interval_cases d <;> decide

theorem digitsToNat_append_single (xs : List Char) (c : Char) :
    digitsToNat (xs ++ [c]) = 10 * digitsToNat xs + digitVal c := by
  simp [digitsToNat, List.foldl_append]

theorem natDecimalAux_spec :
    ∀ fuel n, n < fuel →
      digitsToNat (natDecimalAux fuel n) = n ∧
      natDecimalAux fuel n ≠ [] ∧
      ∀ c ∈ natDecimalAux fuel n, isDigitChar c = true := by
  intro fuel
  induction fuel with
  | zero => intro n h; omega
  | succ f ih =>
    intro n h
    rw [natDecimalAux]
    by_cases h10 : n < 10
    · rw [if_pos h10]
      refine ⟨?_, by simp, ?_⟩
      · simp [digitsToNat, digitVal_digitChar h10]
      · intro c hc
        simp only [List.mem_singleton] at hc
        subst hc
        exact isDigitChar_digitChar h10
    · rw [if_neg h10]
      have hdiv : n / 10 < n := Nat.div_lt_self (by omega) (by omega)
      obtain ⟨ih1, ih2, ih3⟩ := ih (n / 10) (by omega)
      have hmod : n % 10 < 10 := Nat.mod_lt n (by omega)
      refine ⟨?_, by simp, ?_⟩
      · rw [digitsToNat_append_single, ih1, digitVal_digitChar hmod]
        omega
      · intro c hc
        rcases List.mem_append.mp hc with hc | hc
        · exact ih3 c hc
        · simp only [List.mem_singleton] at hc
          subst hc
          exact isDigitChar_digitChar hmod

theorem natDecimal_spec (n : Nat) :
    digitsToNat (natDecimal n) = n ∧ natDecimal n ≠ [] ∧
      ∀ c ∈ natDecimal n, isDigitChar c = true :=
  natDecimalAux_spec (n + 1) n (by omega)

theorem listStartsWith_of_append (p r : List Char) :
    listStartsWith p (p ++ r) = true := by
  induction p with
  | nil => rfl
  | cons a ps ih => simp [listStartsWith, ih]

theorem listStartsWith_iff_take (p : List Char) :
    ∀ l : List Char, listStartsWith p l = true ↔ l.take p.length = p := by
  induction p with
  | nil => intro l; simp [listStartsWith]
  | cons a ps ih =>
    intro l
    cases l with
    | nil => simp [listStartsWith]
    | cons c cs =>
      simp only [listStartsWith, Bool.and_eq_true, beq_iff_eq, List.length_cons,
        List.take_succ_cons, List.cons.injEq, ih]
      constructor
      · rintro ⟨rfl, h2⟩
        exact ⟨rfl, h2⟩
      · rintro ⟨rfl, h2⟩
        exact ⟨rfl, h2⟩

theorem listStartsWith_cons_false {a c : Char} (h : a ≠ c) (ps cs : List Char) :
    listStartsWith (a :: ps) (c :: cs) = false := by
  simp [listStartsWith, h]

theorem takeWhile_append_of_none {p : Char → Bool} :
    ∀ xs : List Char, (∀ c ∈ xs, p c = true) → ∀ {y : Char}, p y = false →
      ∀ r : List Char, (xs ++ y :: r).takeWhile p = xs := by
  intro xs
  induction xs with
  | nil =>
    intro _ y hy r
    simp [List.takeWhile_cons, hy]
  | cons x xs' ih =>
    intro hall y hy r
    have hx : p x = true := hall x (List.mem_cons_self _ _)
    simp only [List.cons_append, List.takeWhile_cons, hx, if_true]
    rw [ih (fun c hc => hall c (List.mem_cons_of_mem _ hc)) hy r]

theorem matchTagAt_nil : matchTagAt [] = none := by decide

theorem matchTagAt_none_of_head_ne {c : Char} (h : c ≠ 'A') (cs : List Char) :
    matchTagAt (c :: cs) = none := by
  have htag : tagText.data = 'A' :: "ccuRev Transaction #".data := rfl
  unfold matchTagAt
  rw [htag, listStartsWith_cons_false (fun he => h he.symm)]
  simp

theorem searchTag_of_match {cs : List Char} {n : Nat} (h : matchTagAt cs = some n) :
    searchTag cs = some n := by
  cases cs with
  | nil => rw [matchTagAt_nil] at h; cases h
  | cons c rest => rw [searchTag, h]

theorem matchTagAt_drop_none {cs : List Char} (h : searchTag cs = none) :
    ∀ i, matchTagAt (cs.drop i) = none := by
  induction cs with
  | nil => intro i; rw [List.drop_nil]; exact matchTagAt_nil
  | cons c rest ih =>
    rw [searchTag] at h
    cases hm : matchTagAt (c :: rest) with
    | some k => rw [hm] at h; cases h
    | none =>
      rw [hm] at h
      intro i
      cases i with
      | zero => exact hm
      | succ j =>
        rw [List.drop_succ_cons]
        exact ih h j

theorem searchTag_append {post : List Char} :
    ∀ pre : List Char, (∀ i, i < pre.length → matchTagAt (pre.drop i ++ post) = none) →
      searchTag (pre ++ post) = searchTag post := by
  intro pre
  induction pre with
  | nil => intro _; rfl
  | cons c cs ih =>
    intro h
    have h0 : matchTagAt (c :: (cs ++ post)) = none := by
      have := h 0 (by simp)
      simpa using this
    rw [List.cons_append, searchTag, h0]
    exact ih (fun i hi => by
      have := h (i + 1) (by simp; omega)
      rwa [List.drop_succ_cons] at this)

theorem takeWhile_append_nil {p : Char → Bool} {l : List Char}
    (h : l.takeWhile p = []) {y : Char} (hy : p y = false) (r : List Char) :
    (l ++ y :: r).takeWhile p = [] := by
  cases l with
  | nil => simp [List.takeWhile_cons, hy]
  | cons x xs =>
    rw [List.takeWhile_cons] at h
    by_cases hpx : p x = true
    · rw [if_pos hpx] at h; cases h
    · rw [List.cons_append, List.takeWhile_cons, if_neg hpx]

theorem matchTagAt_append_newline {L R : List Char} (hL : matchTagAt L = none) :
    matchTagAt (L ++ '\n' :: R) = none := by
  by_cases hs : listStartsWith tagText.data (L ++ '\n' :: R) = true
  · have hsTake := (listStartsWith_iff_take _ _).mp hs
    by_cases hlen : tagText.data.length ≤ L.length
    · have htakeL : L.take tagText.data.length = tagText.data := by
        rw [List.take_append_of_le_length hlen] at hsTake
        exact hsTake
      have hsL : listStartsWith tagText.data L = true :=
        (listStartsWith_iff_take _ _).mpr htakeL
      unfold matchTagAt at hL
      rw [if_pos hsL] at hL
      dsimp only at hL
      have hds : (L.drop tagText.data.length).takeWhile isDigitChar = [] := by
        split at hL
        · next hemp => exact List.isEmpty_iff.mp hemp
        · cases hL
      unfold matchTagAt
      rw [if_pos hs]
      dsimp only
      rw [List.drop_append_of_le_length hlen,
        takeWhile_append_nil hds (by decide) R]
      simp
    · exfalso
      have hmem : '\n' ∈ (L ++ '\n' :: R).take tagText.data.length := by
        rw [List.take_append_eq_append_take,
          List.take_of_length_le (by omega)]
        obtain ⟨k, hk⟩ : ∃ k, tagText.data.length - L.length = k + 1 :=
          ⟨tagText.data.length - L.length - 1, by
            have h21 : tagText.data.length = 21 := rfl
            omega⟩
        rw [hk, List.take_succ_cons]
        exact List.mem_append_right _ (List.mem_cons_self _ _)
      rw [hsTake] at hmem
      exact absurd hmem (by decide)
  · unfold matchTagAt
    rw [if_neg hs]

theorem searchTag_message (c : String) (id : Nat) (hc : searchTag c.data = none) :
    searchTag (c ++ "\n\n" ++ "[" ++ tagText ++ String.mk (natDecimal id) ++ "]").data
      = some id := by
  obtain ⟨hval, hne, hdigits⟩ := natDecimal_spec id
  have hdata : (c ++ "\n\n" ++ "[" ++ tagText ++ String.mk (natDecimal id) ++ "]").data
      = (c.data ++ ['\n', '\n', '[']) ++ (tagText.data ++ (natDecimal id ++ [']'])) := by
    simp only [string_data_append]
    simp only [List.append_assoc]
    rfl
  rw [hdata]
  rw [searchTag_append]
  · apply searchTag_of_match
    unfold matchTagAt
    rw [if_pos (listStartsWith_of_append _ _), List.drop_left,
      takeWhile_append_of_none (natDecimal id) hdigits (by decide) []]
    rw [if_neg (fun h => hne (List.isEmpty_iff.mp h)), hval]
  · intro i hi
    simp only [List.length_append, List.length_cons, List.length_nil] at hi
    by_cases hiC : i ≤ c.data.length
    · rw [List.drop_append_of_le_length hiC, List.append_assoc]
      simp only [List.cons_append, List.nil_append]
      exact matchTagAt_append_newline (matchTagAt_drop_none hc i)
    · have : i = c.data.length + 1 ∨ i = c.data.length + 2 := by omega
      rcases this with rfl | rfl
      · rw [List.drop_append 1]
        simp only [List.drop_succ_cons, List.drop_zero, List.cons_append]
        exact matchTagAt_none_of_head_ne (by decide) _
      · rw [List.drop_append 2]
        simp only [List.drop_succ_cons, List.drop_zero, List.cons_append]
        exact matchTagAt_none_of_head_ne (by decide) _

/-- C3 (amended): checkpoint resolution round-trips with commit-message
generation: on a bootstrap target it yields the configured start
transaction id (when that configured value is a valid integer), and on a
populated target whose last commit message was generated for transaction
`t` it yields `t.id + 1` — provided the original comment (or the
placeholder for an absent one) does not itself contain an occurrence of the
tag pattern `AccuRev Transaction #` followed by a digit. -/
theorem c3_checkpoint_roundtrip (start log : String) (n : Nat) (t : Transaction) :
    (parseDecimal start = some n →
      getLastConvertedTransaction true start log = .resume n) ∧
    (searchTag (t.comment.getD "[no original comment]").data = none →
      getLastConvertedTransaction false start (accurevComment2GitMessage t) =
        .resume (t.id + 1)) := by
  constructor
  · intro hp
    unfold getLastConvertedTransaction
    rw [if_pos rfl, hp]
  · intro hs
    unfold getLastConvertedTransaction
    rw [if_neg (by decide)]
    cases hc : t.comment with
    | none =>
      have hmsg : accurevComment2GitMessage t =
          "[no original comment]" ++ "\n\n" ++ "[" ++ tagText ++
            String.mk (natDecimal t.id) ++ "]" := by
        unfold accurevComment2GitMessage
        rw [hc]
      rw [hc] at hs
      have hs2 : searchTag ("[no original comment]" : String).data = none := hs
      rw [hmsg, searchTag_message _ _ hs2]
    | some cstr =>
      have hmsg : accurevComment2GitMessage t =
          cstr ++ "\n\n" ++ "[" ++ tagText ++ String.mk (natDecimal t.id) ++ "]" := by
        unfold accurevComment2GitMessage
        rw [hc]
      rw [hc] at hs
      have hs2 : searchTag cstr.data = none := hs
      rw [hmsg, searchTag_message _ _ hs2]

/-- Counterexample to C3 as stated: for transaction 5 whose comment
mentions `AccuRev Transaction #99`, the regex search finds the comment's
occurrence first and resumes at 100 instead of 6. -/
theorem c3_counterexample :
    getLastConvertedTransaction false "1" (accurevComment2GitMessage exTxnBad) =
      .resume 100 ∧ (100 : Nat) ≠ exTxnBad.id + 1 :=
  ⟨by decide, by decide⟩

theorem c3_witness :
    getLastConvertedTransaction true "7" "log" = .resume 7 ∧
    getLastConvertedTransaction false "7"
        (accurevComment2GitMessage ⟨12, none, "u", "tm", []⟩) = .resume (12 + 1) :=
  ⟨(c3_checkpoint_roundtrip "7" "log" 7 ⟨12, none, "u", "tm", []⟩).1 (by decide),
   (c3_checkpoint_roundtrip "7" "log" 7 ⟨12, none, "u", "tm", []⟩).2 (by decide)⟩

end Ac2Git
